import Mathlib

/-!
Shallow embedding of the session-scoped streaming audio pipeline of the
`aiaudiopipeline` backend, together with theorems settling the frozen claims
about it.

Embedded source files:
* `app/services/keyword_detector.py` — keyword cache loading and detection;
* `app/services/audio_processor.py` — chunk/file processing pipeline;
* `app/services/notification.py` — WebSocket fan-out (`broadcast_notification`);
* `app/api/endpoints/websockets.py` — connection cleanup on disconnect;
* `app/core/config.py` — `DEFAULT_KEYWORD_THRESHOLD`.

Modelling conventions:
* Python `str` is modelled as `List Char` (ASCII-faithful; `str.lower` and the
  regex word class `\w` are modelled on the ASCII range they use here).
* Python `float` values carried by the pipeline (timestamps, confidences,
  thresholds) are only ever constructed, compared and truncated, never
  subjected to rounding arithmetic, so they are modelled as `ℚ`; `int(x)`
  is truncation toward zero (`Int.tdiv`).
* Python `dict` is an insertion-ordered association list with unique keys;
  assignment replaces in place, `del` removes the entry.
* The external collaborators (Whisper transcription, SQLAlchemy storage) are
  failure-injected arguments of type `Except`: a `.error e` argument stands
  for the call raising an exception whose `str` is `e`.
* `NotificationService.send_notification` wraps everything in
  `try/except` and therefore never raises; emission is modelled as
  appending to an event list.  The wall-clock `timestamp` field of a
  notification is omitted (irrelevant to every claim).
-/

namespace AudioPipe

/-- Insertion-ordered dictionary lookup (`m[k]` / `k in m`). -/
def dictGet {κ α : Type} [DecidableEq κ] : List (κ × α) → κ → Option α
  | [], _ => none
  | (k', v) :: m, k => if k' = k then some v else dictGet m k

/-- Insertion-ordered dictionary assignment `m[k] = v`: replaces in place if
the key is present, else appends at the end. -/
def dictSet {κ α : Type} [DecidableEq κ] : List (κ × α) → κ → α → List (κ × α)
  | [], k, v => [(k, v)]
  | (k', v') :: m, k, v => if k' = k then (k, v) :: m else (k', v') :: dictSet m k v

/-- Dictionary deletion `del m[k]`: removes the (unique) entry for `k`. -/
def dictDel {κ α : Type} [DecidableEq κ] : List (κ × α) → κ → List (κ × α)
  | [], _ => []
  | (k', v') :: m, k => if k' = k then m else (k', v') :: dictDel m k

/-- Well-formedness of the dictionary model: keys are pairwise distinct,
as they are for a Python `dict`. -/
abbrev dictNodup {κ α : Type} (m : List (κ × α)) : Prop := (m.map Prod.fst).Nodup

/-- ASCII case folding of one character, as `str.lower` acts on the ASCII
range: `A`–`Z` (code points 65–90) map 32 code points up, everything else is
fixed. -/
def pyLowerChar (c : Char) : Char :=
  if 65 ≤ c.toNat ∧ c.toNat ≤ 90 then Char.ofNat (c.toNat + 32) else c

/-- Model of `text.lower()`. -/
def pyLower (t : List Char) : List Char := t.map pyLowerChar

/-- Membership in the regex word class `\w` (ASCII part): letters, digits,
underscore. -/
def isWordChar (c : Char) : Bool := c.isAlphanum || c == '_'

/-- Whether position `i` of `t` holds a word character (out of range counts
as non-word, as at the ends of a string for `re`). -/
def wordAt (t : List Char) (i : Nat) : Bool :=
  match t[i]? with
  | some c => isWordChar c
  | none => false

/-- A `\b` word boundary at position `i` of `t`: the wordness of the
character before `i` differs from the wordness of the character at `i`. -/
def boundaryAt (t : List Char) (i : Nat) : Bool :=
  (if i = 0 then false else wordAt t (i - 1)) != wordAt t i

/-- The literal `kw` occurs in `t` starting at position `i`. -/
def occursAt (kw t : List Char) (i : Nat) : Bool := kw.isPrefixOf (t.drop i)

/-- Model of `re.search(r'\b' + re.escape(kw) + r'\b', t)` succeeding: the
literal occurs somewhere with word boundaries on both sides. -/
def wholeWordMatch (kw t : List Char) : Bool :=
  (List.range (t.length + 1)).any fun i =>
    occursAt kw t i && boundaryAt t i && boundaryAt t (i + kw.length)

/-- Model of Python substring containment `kw in t`. -/
def substrMatch (kw t : List Char) : Bool :=
  (List.range (t.length + 1)).any fun i => occursAt kw t i

/-- Config constant `DEFAULT_KEYWORD_THRESHOLD = 0.7`
(`app/core/config.py`, line 41). -/
def DEFAULT_KEYWORD_THRESHOLD : ℚ := mkRat 7 10

/-- One formatted talking point as stored in the keyword cache
(`_load_keywords_from_db`). -/
structure TalkingPointData where
  id : Int
  title : List Char
  content : List Char
  priority : Int
deriving DecidableEq, Repr

/-- One value of the keyword cache `keywords_cache`, keyed by the lowercased
keyword text.  The `threshold` key is always written by the loader (the DB
column has default 0.7 and the creation schema always supplies a float), so
it is modelled as a plain `ℚ`; the `.get("threshold", DEFAULT)` fallback in
`detect_keywords` therefore always returns this stored value. -/
structure KeywordData where
  id : Int
  text : List Char
  description : Option (List Char)
  threshold : ℚ
  talking_points : List TalkingPointData
deriving DecidableEq, Repr

/-- The keyword cache: a Python dict from lowercased keyword text to its
data, in insertion order. -/
abbrev KCache : Type := List (List Char × KeywordData)

/-- A detected-keyword entry as appended by `detect_keywords`. -/
structure KeywordHit where
  id : Int
  keyword : List Char
  description : Option (List Char)
  confidence : ℚ
  talking_points : List TalkingPointData
deriving DecidableEq, Repr

/-- The hit dict built by `detect_keywords` for keyword data `kd` at
confidence `c`. -/
def mkHit (kd : KeywordData) (c : ℚ) : KeywordHit :=
  { id := kd.id, keyword := kd.text, description := kd.description,
    confidence := c, talking_points := kd.talking_points }

/-- Stable insertion of a hit into a descending-confidence-sorted list: the
new element is placed directly before the first element whose confidence is
not strictly greater, so it lands after all strictly-greater elements and
before all already-present ties. -/
def insertHitDesc (x : KeywordHit) : List KeywordHit → List KeywordHit
  | [] => [x]
  | y :: ys => if y.confidence > x.confidence then y :: insertHitDesc x ys else x :: y :: ys

/-- Model of `detected_keywords.sort(key=lambda x: x["confidence"],
reverse=True)`: Python's stable sort, by descending confidence.  Implemented
as a stable insertion sort: an element is placed before every later-input
element of equal confidence and after every element of strictly greater
confidence. -/
def sortHitsDesc : List KeywordHit → List KeywordHit
  | [] => []
  | x :: xs => insertHitDesc x (sortHitsDesc xs)

/-- The `for keyword_text, keyword_data in self.keywords_cache.items()` loop
of `detect_keywords`, applied to the already-lowercased text: iterates the
cache in insertion order; a whole-word regex match appends a confidence-1.0
hit unconditionally, otherwise substring containment appends a
confidence-0.8 hit when 0.8 ≥ the keyword's threshold. -/
def scanHits (cache : KCache) (text_lower : List Char) : List KeywordHit :=
  cache.flatMap fun p =>
    if wholeWordMatch p.1 text_lower then [mkHit p.2 (mkRat 1 1)]
    else if substrMatch p.1 text_lower then
      if mkRat 8 10 ≥ p.2.threshold then [mkHit p.2 (mkRat 8 10)] else []
    else []

/-- Model of `KeywordDetector.detect_keywords`
(`app/services/keyword_detector.py`, lines 68–115).  `text` is `Option`al
because the Python parameter may be `None`; `if not text` catches both
`None` and the empty string.  Otherwise the text is lowercased, the cache is
scanned in insertion order (`scanHits`), and the hits are stably sorted by
descending confidence. -/
def detect_keywords (cache : KCache) (text : Option (List Char)) : List KeywordHit :=
  match text with
  | none => []
  | some t =>
    if t = [] then []
    else sortHitsDesc (scanHits cache (pyLower t))

/-- A transcript segment (`app/schemas/audio.py`, `TranscriptSegment`).
`detected_keywords` starts out `none` and is assigned by the processor. -/
structure TranscriptSegment where
  text : List Char
  start_time : ℚ
  end_time : ℚ
  speaker : Option (List Char)
  is_prospect : Bool
  confidence : Option ℚ
  detected_keywords : Option (List KeywordHit)
deriving DecidableEq, Repr

/-- Notification kinds (`app/schemas/notification.py`, `NotificationType`). -/
inductive NType
  | keywordDetected
  | transcriptionUpdate
  | transcriptionComplete
  | partialTranscription
  | sessionStatus
  | errorNote
deriving DecidableEq, Repr

/-- Notification payload dictionaries actually built by the processor. -/
inductive NPayload
  | keywordP (keyword : KeywordHit) (segment : TranscriptSegment) (timestamp : ℚ)
  | partialP (segments : List TranscriptSegment) (detected : List KeywordHit)
  | completeP (transcript : List Char) (detected : List KeywordHit)
  | completeStatusP
  | errorP (msg : List Char)
deriving DecidableEq, Repr

/-- One emitted notification (wall-clock timestamp field omitted). -/
structure Notification where
  ntype : NType
  session_id : List Char
  payload : NPayload
deriving DecidableEq, Repr

/-- The `TranscriptionResult` row handed to `audio_crud.create_transcript`
and persisted by it.  Both processing paths pass a segments blob under the
keyword argument `meta_data=`, but the pydantic schema's field is named
`metadata` (`app/schemas/audio.py`, line 119), so the unknown kwarg is
silently ignored and the constructed row — and hence the stored
`Transcript.meta_data` (`app/crud/audio.py`, line 90) — carries
`metadata = None`.  The field is kept here, at the type of the blob the
processor tries to attach (ordered segments, plus the hit list on the
whole-file path), and is always `none`. -/
structure TranscriptRow where
  session_id : List Char
  audio_file_path : Option (List Char)
  text : List Char
  language : Option (List Char)
  duration : Option ℚ
  metadata : Option (List TranscriptSegment × Option (List KeywordHit))
  is_final : Bool
deriving DecidableEq, Repr

/-- Python `int(q)`: truncation toward zero. -/
def pyInt (q : ℚ) : Int := q.num.tdiv q.den

/-- Model of `" ".join(xs)`. -/
def joinSpace : List (List Char) → List Char
  | [] => []
  | [x] => x
  | x :: y :: xs => x ++ ' ' :: joinSpace (y :: xs)

/-- One chunk entry appended to `session_data["chunks"]`. -/
structure ChunkEntry where
  sequence_number : Int
  timestamp : ℚ
  segments : List TranscriptSegment
deriving DecidableEq, Repr

/-- Per-session in-memory state (`active_sessions[session_id]`).  The Python
dict also initializes an unused empty list under a third key that is never
read nor written again; it is omitted. -/
structure SessionData where
  chunks : List ChunkEntry
  last_sequence : Int
deriving DecidableEq, Repr

/-- The processor's `active_sessions` dict. -/
abbrev ProcState : Type := List (List Char × SessionData)

/-- Stable insertion of a chunk into an ascending-sequence-sorted list: the
new element is placed directly before the first element whose sequence number
is not strictly smaller. -/
def insertChunkAsc (x : ChunkEntry) : List ChunkEntry → List ChunkEntry
  | [] => [x]
  | y :: ys =>
    if y.sequence_number < x.sequence_number then y :: insertChunkAsc x ys
    else x :: y :: ys

/-- Model of `sorted(chunks, key=lambda x: x["sequence_number"])`: Python's
stable sort, ascending by sequence number. -/
def sortChunksAsc : List ChunkEntry → List ChunkEntry
  | [] => []
  | x :: xs => insertChunkAsc x (sortChunksAsc xs)

/-- The `all_segments` accumulation of the terminal branch
(`app/services/audio_processor.py`, lines 178–180): the buffered chunks
sorted by ascending sequence number, their segment lists concatenated in
that order.  This local list is what the finalizer derives the transcript
text, duration and completion event from. -/
def finalizeSegments (chunks : List ChunkEntry) : List TranscriptSegment :=
  (sortChunksAsc chunks).flatMap (·.segments)

/-- The per-segment loop shared by both processing paths (lines 53–69 and
153–169 of `app/services/audio_processor.py`): detect keywords on the
segment text, assign them to the segment, extend the chunk-level hit list,
and emit one `KEYWORD_DETECTED` notification per hit.  Returns the mutated
segments, the extended hit list, and the emitted notifications, in order. -/
def processSegments (cache : KCache) (session_id : List Char) :
    List TranscriptSegment → List TranscriptSegment × List KeywordHit × List Notification
  | [] => ([], [], [])
  | s :: ss =>
    let hits := detect_keywords cache (some s.text)
    let s' := { s with detected_keywords := some hits }
    let evs := hits.map fun h =>
      Notification.mk .keywordDetected session_id (.keywordP h s' s'.start_time)
    let rest := processSegments cache session_id ss
    (s' :: rest.1, hits ++ rest.2.1, evs ++ rest.2.2)

/-- Model of `AudioProcessor.process_audio_chunk_and_save`
(`app/services/audio_processor.py`, lines 117–224).

Arguments `tr` and `persist` inject the outcomes of the external
collaborators: `tr` is the `transcribe_chunk` call (`.error e` raises an
exception with `str(e) = e`), `persist` the `create_transcript` call.
Temp-file bookkeeping is elided (it touches no pipeline state).  Returns the
updated `active_sessions`, the notifications emitted in order, and the
transcript rows persisted. -/
def processChunk (cache : KCache) (st : ProcState) (session_id : List Char)
    (sequence_number : Int) (timestamp : ℚ) (is_final : Bool)
    (file_path : Option (List Char))
    (tr : Except (List Char) (List TranscriptSegment))
    (persist : Except (List Char) Unit) :
    ProcState × List Notification × List TranscriptRow :=
  let st1 := if (dictGet st session_id).isSome then st
             else dictSet st session_id { chunks := [], last_sequence := -1 }
  match dictGet st1 session_id with
  | none => (st1, [], [])
  | some sd =>
    if sequence_number ≤ sd.last_sequence then
      (st1, [], [])
    else
      let sd1 : SessionData := { sd with last_sequence := sequence_number }
      let st2 := dictSet st1 session_id sd1
      match tr with
      | .error e => (st2, [⟨.errorNote, session_id, .errorP e⟩], [])
      | .ok segs =>
        let res := processSegments cache session_id segs
        let segs' := res.1
        let hitsAll := res.2.1
        let kwEvents := res.2.2
        let sd2 : SessionData :=
          { sd1 with chunks := sd1.chunks ++ [⟨sequence_number, timestamp, segs'⟩] }
        let st3 := dictSet st2 session_id sd2
        if is_final then
          let all_segments := finalizeSegments sd2.chunks
          let full_text := joinSpace (all_segments.map (·.text))
          -- the `meta_data=` kwarg does not match the schema field
          -- `metadata`, so the segments blob is dropped: `metadata := none`.
          let row : TranscriptRow :=
            { session_id := session_id, audio_file_path := file_path,
              text := full_text, language := some "en".toList,
              duration := match all_segments.getLast? with
                | some s => some ((pyInt s.end_time : Int) : ℚ)
                | none => none,
              metadata := none,
              is_final := true }
          match persist with
          | .error e => (st3, kwEvents ++ [⟨.errorNote, session_id, .errorP e⟩], [])
          | .ok _ =>
            (dictDel st3 session_id,
             kwEvents ++ [⟨.transcriptionComplete, session_id,
                           .completeP full_text hitsAll⟩],
             [row])
        else
          (st3, kwEvents ++ [⟨.partialTranscription, session_id,
                             .partialP segs' hitsAll⟩], [])

/-- A whole-file transcription result as returned by `transcribe_file`. -/
structure FileTranscription where
  text : List Char
  language : Option (List Char)
  duration : Option ℚ
  segments : List TranscriptSegment
deriving DecidableEq, Repr

/-- The `except` clause of `process_audio_file_and_save` (lines 100–114):
an exception whose `str` equals `"TRANSCRIPTION_COMPLETE"` is reported as a
completion-status notification, every other one as an `ERROR` notification
carrying the stringified cause. -/
def fileExceptEvents (session_id e : List Char) : List Notification :=
  if e = "TRANSCRIPTION_COMPLETE".toList then
    [⟨.transcriptionComplete, session_id, .completeStatusP⟩]
  else
    [⟨.errorNote, session_id, .errorP e⟩]

/-- Model of `AudioProcessor.process_audio_file_and_save`
(`app/services/audio_processor.py`, lines 34–114), with the same
failure-injection convention as `processChunk`. -/
def processFile (cache : KCache) (session_id : List Char)
    (file_path : List Char)
    (tr : Except (List Char) FileTranscription)
    (persist : Except (List Char) Unit) :
    List Notification × List TranscriptRow :=
  match tr with
  | .error e => (fileExceptEvents session_id e, [])
  | .ok r =>
    let res := processSegments cache session_id r.segments
    let segs' := res.1
    let hitsAll := res.2.1
    let kwEvents := res.2.2
    let full_text := joinSpace (segs'.map (·.text))
    -- as on the chunk path, the `meta_data=` kwarg (segments plus detected
    -- hit list here) is dropped by the schema: `metadata := none`.
    let row : TranscriptRow :=
      { session_id := session_id, audio_file_path := some file_path,
        text := r.text, language := r.language, duration := r.duration,
        metadata := none,
        is_final := true }
    match persist with
    | .error e => (kwEvents ++ fileExceptEvents session_id e, [])
    | .ok _ =>
      (kwEvents ++ [⟨.transcriptionComplete, session_id,
                     .completeP full_text hitsAll⟩],
       [row])

/-- A keyword row as returned by `keyword_crud.get_keywords`. -/
structure KeywordRow where
  id : Int
  text : List Char
  description : Option (List Char)
  threshold : ℚ
deriving DecidableEq, Repr

/-- A talking-point row as returned by
`keyword_crud.get_talking_points_by_keyword`. -/
structure TalkingPointRow where
  id : Int
  title : List Char
  content : List Char
  priority : Int
deriving DecidableEq, Repr

/-- The talking-point formatting comprehension inside
`_load_keywords_from_db`. -/
def formatTPs (tps : List TalkingPointRow) : List TalkingPointData :=
  tps.map fun tp => ⟨tp.id, tp.title, tp.content, tp.priority⟩

/-- The `for keyword in db_keywords` loop of `_load_keywords_from_db`,
writing each entry into the live cache as it goes.  A failing
talking-point fetch raises, and the `except` clause replaces the whole
cache by the empty dict. -/
def loadLoop (cache : KCache) (ftp : Int → Except (List Char) (List TalkingPointRow)) :
    List KeywordRow → KCache
  | [] => cache
  | r :: rs =>
    match ftp r.id with
    | .error _ => []
    | .ok tps =>
      loadLoop (dictSet cache (pyLower r.text)
        { id := r.id, text := r.text, description := r.description,
          threshold := r.threshold, talking_points := formatTPs tps }) ftp rs

/-- Model of `KeywordDetector._load_keywords_from_db`
(`app/services/keyword_detector.py`, lines 29–66).  `prior` is the value of
`keywords_cache` when the load starts; `fetch` injects the outcome of
`get_keywords`, `ftp` the outcome of each `get_talking_points_by_keyword`
call.  On any raised exception the cache is assigned the empty dict. -/
def loadKeywordCache (prior : KCache)
    (fetch : Except (List Char) (List KeywordRow))
    (ftp : Int → Except (List Char) (List TalkingPointRow)) : KCache :=
  match fetch with
  | .error _ => []
  | .ok rows => loadLoop prior ftp rows

/-- A WebSocket subscriber handle.  `fails` injects the delivery outcome:
`send_text` on this handle raises iff `fails` is true (delivery behaviour is
a property of the handle, deterministic across a broadcast). -/
structure Conn where
  cid : Nat
  fails : Bool
deriving DecidableEq, Repr

/-- The module-level `active_connections` registry of
`app/services/notification.py`. -/
abbrev Registry : Type := List (List Char × List Conn)

/-- One step of the removal loop after the delivery pass:
`if connection in conns: conns.remove(connection)` — `list.remove` drops the
first occurrence. -/
def removeConn (conns : List Conn) (c : Conn) : List Conn :=
  if c ∈ conns then conns.erase c else conns

/-- Model of `NotificationService.broadcast_notification`
(`app/services/notification.py`, lines 97–132) for an event of the given
session: attempt delivery to every handle registered under the session in
order, collect the handles whose send raised, and remove exactly those from
the session's list after the pass.  Returns the updated registry and the
list of handles that received the event. -/
def broadcastNotification (reg : Registry) (session_id : List Char) :
    Registry × List Conn :=
  match dictGet reg session_id with
  | none => (reg, [])
  | some conns =>
    let delivered := conns.filter fun c => !c.fails
    let connections_to_remove := conns.filter (·.fails)
    let pruned := connections_to_remove.foldl removeConn conns
    (dictSet reg session_id pruned, delivered)

/-- Model of the `except WebSocketDisconnect` cleanup of
`websocket_endpoint` (`app/api/endpoints/websockets.py`, lines 72–76):
remove this handle from the session's list and delete the session's key
when the list becomes empty.  (The Python code assumes the key is present —
it registered the handle on connect; an absent key is returned unchanged
here.) -/
def wsDisconnectCleanup (reg : Registry) (session_id : List Char) (ws : Conn) :
    Registry :=
  match dictGet reg session_id with
  | none => reg
  | some conns =>
    let conns' := conns.erase ws
    let reg1 := dictSet reg session_id conns'
    if conns' = [] then dictDel reg1 session_id else reg1

/-! Helper lemmas about the dictionary model. -/

theorem dictGet_dictSet_self {κ α : Type} [DecidableEq κ] (m : List (κ × α)) (k : κ) (v : α) :
    dictGet (dictSet m k v) k = some v := by
  induction m with
  | nil => simp [dictGet, dictSet]
  | cons p m ih =>
    cases p with
    | mk k' v' =>
      by_cases h : k' = k
      · simp [dictSet, dictGet, h]
      · simp [dictSet, dictGet, h, ih]

theorem dictGet_dictSet_ne {κ α : Type} [DecidableEq κ] (m : List (κ × α)) (k k' : κ) (v : α)
    (h : k' ≠ k) : dictGet (dictSet m k v) k' = dictGet m k' := by
  induction m with
  | nil => simp [dictGet, dictSet, Ne.symm h]
  | cons p m ih =>
    cases p with
    | mk a b =>
      by_cases ha : a = k
      · subst ha
        simp [dictSet, dictGet, Ne.symm h]
      · by_cases hb : a = k'
        · subst hb
          simp [dictSet, dictGet, h]
        · simp [dictSet, dictGet, ha, hb, ih]

theorem dictSet_eq_self {κ α : Type} [DecidableEq κ] (m : List (κ × α)) (k : κ) (v : α)
    (h : dictGet m k = some v) : dictSet m k v = m := by
  induction m with
  | nil => simp [dictGet] at h
  | cons p m ih =>
    cases p with
    | mk a b =>
      by_cases ha : a = k
      · subst ha
        simp [dictGet] at h
        simp [dictSet, h]
      · simp [dictGet, ha] at h
        simp [dictSet, ha, ih h]

theorem dictGet_eq_none_of_not_mem {κ α : Type} [DecidableEq κ] (m : List (κ × α)) (k : κ)
    (h : k ∉ m.map Prod.fst) : dictGet m k = none := by
  induction m with
  | nil => simp [dictGet]
  | cons p m ih =>
    cases p with
    | mk a b =>
      simp only [List.map_cons, List.mem_cons] at h
      push_neg at h
      simp [dictGet, Ne.symm h.1, ih h.2]

theorem mem_map_fst_dictSet {κ α : Type} [DecidableEq κ] (m : List (κ × α)) (k a : κ) (v : α) :
    a ∈ (dictSet m k v).map Prod.fst ↔ a = k ∨ a ∈ m.map Prod.fst := by
  induction m with
  | nil => simp [dictSet]
  | cons p m ih =>
    cases p with
    | mk b c =>
      by_cases hb : b = k
      · subst hb
        simp [dictSet]
      · simp only [dictSet, if_neg hb, List.map_cons, List.mem_cons, ih]
        tauto

theorem dictNodup_dictSet {κ α : Type} [DecidableEq κ] (m : List (κ × α)) (k : κ) (v : α)
    (h : dictNodup m) : dictNodup (dictSet m k v) := by
  induction m with
  | nil => simp [dictNodup, dictSet]
  | cons p m ih =>
    cases p with
    | mk a b =>
      unfold dictNodup at h
      simp only [List.map_cons, List.nodup_cons] at h
      by_cases ha : a = k
      · subst ha
        unfold dictNodup
        simpa [dictSet] using h
      · unfold dictNodup
        simp only [dictSet, if_neg ha, List.map_cons, List.nodup_cons]
        exact ⟨fun hm => by
          rcases (mem_map_fst_dictSet m k a v).1 hm with h1 | h1
          · exact ha h1
          · exact h.1 h1,
          ih h.2⟩

theorem dictGet_dictDel_self {κ α : Type} [DecidableEq κ] (m : List (κ × α)) (k : κ)
    (h : dictNodup m) : dictGet (dictDel m k) k = none := by
  induction m with
  | nil => simp [dictGet, dictDel]
  | cons p m ih =>
    cases p with
    | mk a b =>
      unfold dictNodup at h
      simp only [List.map_cons, List.nodup_cons] at h
      by_cases ha : a = k
      · subst ha
        simp only [dictDel, if_pos rfl]
        exact dictGet_eq_none_of_not_mem m a h.1
      · simp [dictDel, dictGet, ha, ih h.2]

theorem isSome_dictGet_dictSet {κ α : Type} [DecidableEq κ] (m : List (κ × α)) (k k' : κ) (v : α)
    (h : (dictGet m k').isSome) : (dictGet (dictSet m k v) k').isSome := by
  by_cases hk : k' = k
  · subst hk
    simp [dictGet_dictSet_self]
  · rwa [dictGet_dictSet_ne _ _ _ _ hk]

/-! Helper lemmas about ASCII lowercasing. -/

theorem char_toNat_ofNat_of_valid (n : Nat) (hn : Nat.isValidChar n) :
    (Char.ofNat n).toNat = n := by
  simp [Char.ofNat, Char.toNat, Char.ofNatAux, hn, UInt32.toNat, BitVec.toNat_ofNatLt]

theorem pyLowerChar_idem (c : Char) : pyLowerChar (pyLowerChar c) = pyLowerChar c := by
  unfold pyLowerChar
  by_cases h : 65 ≤ c.toNat ∧ c.toNat ≤ 90
  · rw [if_pos h]
    have ht : (Char.ofNat (c.toNat + 32)).toNat = c.toNat + 32 :=
      char_toNat_ofNat_of_valid _ (Or.inl (by omega))
    rw [if_neg]
    omega
  · rw [if_neg h, if_neg h]

theorem pyLower_idem (t : List Char) : pyLower (pyLower t) = pyLower t := by
  unfold pyLower
  rw [List.map_map]
  exact List.map_congr_left fun c _ => pyLowerChar_idem c

theorem pyLower_eq_nil_iff (t : List Char) : pyLower t = [] ↔ t = [] := by
  unfold pyLower
  exact List.map_eq_nil_iff

/-! Helper lemmas about the stable sorts. -/

theorem insertHitDesc_perm (x : KeywordHit) (l : List KeywordHit) :
    (insertHitDesc x l).Perm (x :: l) := by
  induction l with
  | nil => exact List.Perm.refl _
  | cons y ys ih =>
    unfold insertHitDesc
    by_cases h : y.confidence > x.confidence
    · rw [if_pos h]
      exact (ih.cons y).trans (List.Perm.swap x y ys)
    · rw [if_neg h]

theorem sortHitsDesc_perm (l : List KeywordHit) : (sortHitsDesc l).Perm l := by
  induction l with
  | nil => exact List.Perm.refl _
  | cons x xs ih =>
    exact (insertHitDesc_perm x (sortHitsDesc xs)).trans (ih.cons x)

theorem mem_sortHitsDesc (a : KeywordHit) (l : List KeywordHit) :
    a ∈ sortHitsDesc l ↔ a ∈ l :=
  (sortHitsDesc_perm l).mem_iff

theorem insertHitDesc_sorted (x : KeywordHit) (l : List KeywordHit)
    (h : l.Pairwise fun a b => b.confidence ≤ a.confidence) :
    (insertHitDesc x l).Pairwise fun a b => b.confidence ≤ a.confidence := by
  induction l with
  | nil => simp [insertHitDesc]
  | cons y ys ih =>
    rw [List.pairwise_cons] at h
    unfold insertHitDesc
    by_cases hc : y.confidence > x.confidence
    · rw [if_pos hc]
      rw [List.pairwise_cons]
      refine ⟨fun b hb => ?_, ih h.2⟩
      rcases List.mem_cons.1 (((insertHitDesc_perm x ys).mem_iff).1 hb) with hb' | hb'
      · exact le_of_lt (by simpa [hb'] using hc)
      · exact h.1 b hb'
    · rw [if_neg hc]
      rw [List.pairwise_cons]
      push_neg at hc
      refine ⟨fun b hb => ?_, List.pairwise_cons.2 h⟩
      rcases List.mem_cons.1 hb with hb' | hb'
      · simpa [hb'] using hc
      · exact le_trans (h.1 b hb') hc

theorem sortHitsDesc_sorted (l : List KeywordHit) :
    (sortHitsDesc l).Pairwise fun a b => b.confidence ≤ a.confidence := by
  induction l with
  | nil => simp [sortHitsDesc]
  | cons x xs ih => exact insertHitDesc_sorted x _ ih

theorem filter_insertHitDesc (x : KeywordHit) (l : List KeywordHit) (c : ℚ) :
    (insertHitDesc x l).filter (fun h => decide (h.confidence = c)) =
      if x.confidence = c then x :: l.filter (fun h => decide (h.confidence = c))
      else l.filter (fun h => decide (h.confidence = c)) := by
  induction l with
  | nil =>
    by_cases hx : x.confidence = c <;> simp [insertHitDesc, hx]
  | cons y ys ih =>
    unfold insertHitDesc
    by_cases hc : y.confidence > x.confidence
    · rw [if_pos hc]
      by_cases hx : x.confidence = c
      · have hy : ¬ y.confidence = c := by
          intro hy
          rw [hx] at hc
          rw [hy] at hc
          exact lt_irrefl c hc
        simp [List.filter_cons, hy, ih, hx]
      · by_cases hy : y.confidence = c <;> simp [List.filter_cons, hy, ih, hx]
    · rw [if_neg hc]
      by_cases hx : x.confidence = c <;>
        by_cases hy : y.confidence = c <;>
          simp [List.filter_cons, hx, hy]

theorem filter_sortHitsDesc (l : List KeywordHit) (c : ℚ) :
    (sortHitsDesc l).filter (fun h => decide (h.confidence = c)) =
      l.filter (fun h => decide (h.confidence = c)) := by
  induction l with
  | nil => rfl
  | cons x xs ih =>
    unfold sortHitsDesc
    rw [filter_insertHitDesc]
    by_cases hx : x.confidence = c <;> simp [List.filter_cons, hx, ih]

theorem insertChunkAsc_perm (x : ChunkEntry) (l : List ChunkEntry) :
    (insertChunkAsc x l).Perm (x :: l) := by
  induction l with
  | nil => exact List.Perm.refl _
  | cons y ys ih =>
    unfold insertChunkAsc
    by_cases h : y.sequence_number < x.sequence_number
    · rw [if_pos h]
      exact (ih.cons y).trans (List.Perm.swap x y ys)
    · rw [if_neg h]

theorem sortChunksAsc_perm (l : List ChunkEntry) : (sortChunksAsc l).Perm l := by
  induction l with
  | nil => exact List.Perm.refl _
  | cons x xs ih =>
    exact (insertChunkAsc_perm x (sortChunksAsc xs)).trans (ih.cons x)

theorem insertChunkAsc_sorted (x : ChunkEntry) (l : List ChunkEntry)
    (h : l.Pairwise fun a b => a.sequence_number ≤ b.sequence_number) :
    (insertChunkAsc x l).Pairwise fun a b => a.sequence_number ≤ b.sequence_number := by
  induction l with
  | nil => simp [insertChunkAsc]
  | cons y ys ih =>
    rw [List.pairwise_cons] at h
    unfold insertChunkAsc
    by_cases hc : y.sequence_number < x.sequence_number
    · rw [if_pos hc]
      rw [List.pairwise_cons]
      refine ⟨fun b hb => ?_, ih h.2⟩
      rcases List.mem_cons.1 (((insertChunkAsc_perm x ys).mem_iff).1 hb) with hb' | hb'
      · exact le_of_lt (by simpa [hb'] using hc)
      · exact h.1 b hb'
    · rw [if_neg hc]
      rw [List.pairwise_cons]
      push_neg at hc
      refine ⟨fun b hb => ?_, List.pairwise_cons.2 h⟩
      rcases List.mem_cons.1 hb with hb' | hb'
      · simpa [hb'] using hc
      · exact le_trans hc (h.1 b hb')

theorem sortChunksAsc_sorted (l : List ChunkEntry) :
    (sortChunksAsc l).Pairwise fun a b => a.sequence_number ≤ b.sequence_number := by
  induction l with
  | nil => simp [sortChunksAsc]
  | cons x xs ih => exact insertChunkAsc_sorted x _ ih

/-- Two strictly-sorted (by sequence number) lists that are permutations of
each other are equal. -/
theorem eq_of_perm_of_strictSorted :
    ∀ {l₁ l₂ : List ChunkEntry}, l₁.Perm l₂ →
    l₁.Pairwise (fun a b => a.sequence_number < b.sequence_number) →
    l₂.Pairwise (fun a b => a.sequence_number < b.sequence_number) →
    l₁ = l₂ := by
  intro l₁
  induction l₁ with
  | nil =>
    intro l₂ hp _ _
    exact (hp.nil_eq).symm ▸ rfl
  | cons x xs ih =>
    intro l₂ hp h₁ h₂
    cases l₂ with
    | nil => exact absurd hp.symm.nil_eq (by simp)
    | cons a as =>
      have hxa : x = a := by
        by_contra hne
        have hx2 : x ∈ a :: as := hp.mem_iff.1 (List.mem_cons_self x xs)
        have hxas : x ∈ as := (List.mem_cons.1 hx2).resolve_left hne
        have ha1 : a ∈ x :: xs := hp.symm.mem_iff.1 (List.mem_cons_self a as)
        have haxs : a ∈ xs := (List.mem_cons.1 ha1).resolve_left fun hh => hne hh.symm
        have h1 := (List.pairwise_cons.1 h₁).1 a haxs
        have h2 := (List.pairwise_cons.1 h₂).1 x hxas
        exact absurd h1 (not_lt.2 (le_of_lt h2))
      subst hxa
      have hp' : xs.Perm as := hp.cons_inv
      rw [ih hp' (List.pairwise_cons.1 h₁).2 (List.pairwise_cons.1 h₂).2]

theorem sortChunksAsc_strictSorted (l : List ChunkEntry)
    (hn : (l.map (·.sequence_number)).Nodup) :
    (sortChunksAsc l).Pairwise fun a b => a.sequence_number < b.sequence_number := by
  have hs := sortChunksAsc_sorted l
  have hperm : ((sortChunksAsc l).map (·.sequence_number)).Perm (l.map (·.sequence_number)) :=
    (sortChunksAsc_perm l).map _
  have hn' : ((sortChunksAsc l).map (·.sequence_number)).Nodup := hperm.nodup_iff.2 hn
  have hpn : (sortChunksAsc l).Pairwise fun a b => a.sequence_number ≠ b.sequence_number := by
    have := (List.pairwise_map.1 hn')
    exact this
  exact (hs.and hpn).imp fun h => lt_of_le_of_ne h.1 h.2

/-- Python's stable sort of the chunk buffer depends only on the multiset of
chunks when sequence numbers are distinct. -/
theorem sortChunksAsc_congr_perm {l₁ l₂ : List ChunkEntry} (hp : l₁.Perm l₂)
    (hn : (l₁.map (·.sequence_number)).Nodup) :
    sortChunksAsc l₁ = sortChunksAsc l₂ := by
  have hn₂ : (l₂.map (·.sequence_number)).Nodup := ((hp.map _).nodup_iff).1 hn
  exact eq_of_perm_of_strictSorted
    ((sortChunksAsc_perm l₁).trans (hp.trans (sortChunksAsc_perm l₂).symm))
    (sortChunksAsc_strictSorted l₁ hn) (sortChunksAsc_strictSorted l₂ hn₂)

/-! Characterization of the per-segment loop and of `processChunk` in each
scenario. -/

theorem dictSet_dictSet {κ α : Type} [DecidableEq κ] (m : List (κ × α)) (k : κ) (v w : α) :
    dictSet (dictSet m k v) k w = dictSet m k w := by
  induction m with
  | nil => simp [dictSet]
  | cons p m ih =>
    cases p with
    | mk a b =>
      by_cases ha : a = k
      · simp [dictSet, ha]
      · simp [dictSet, ha, ih]

theorem processSegments_fst (cache : KCache) (sid : List Char)
    (segs : List TranscriptSegment) :
    (processSegments cache sid segs).1 =
      segs.map fun s => { s with detected_keywords := some (detect_keywords cache (some s.text)) } := by
  induction segs with
  | nil => rfl
  | cons s ss ih => simp [processSegments, ih]

theorem processSegments_hits (cache : KCache) (sid : List Char)
    (segs : List TranscriptSegment) :
    (processSegments cache sid segs).2.1 =
      (segs.map fun s => detect_keywords cache (some s.text)).flatten := by
  induction segs with
  | nil => rfl
  | cons s ss ih => simp [processSegments, ih]

theorem processSegments_events_ntype (cache : KCache) (sid : List Char)
    (segs : List TranscriptSegment) :
    ∀ ev ∈ (processSegments cache sid segs).2.2, ev.ntype = NType.keywordDetected := by
  induction segs with
  | nil => simp [processSegments]
  | cons s ss ih =>
    intro ev hev
    simp only [processSegments, List.mem_append] at hev
    rcases hev with hev | hev
    · rcases List.mem_map.1 hev with ⟨h, _, rfl⟩
      rfl
    · exact ih ev hev

/-- Rejection scenario: the session exists and the incoming sequence number
is not greater than `last_sequence` — nothing at all happens. -/
theorem processChunk_rejected (cache : KCache) (st : ProcState) (sid : List Char)
    (seq : Int) (ts : ℚ) (fin : Bool) (fp : Option (List Char))
    (tr : Except (List Char) (List TranscriptSegment)) (persist : Except (List Char) Unit)
    (sd : SessionData) (h : dictGet st sid = some sd) (hseq : seq ≤ sd.last_sequence) :
    processChunk cache st sid seq ts fin fp tr persist = (st, [], []) := by
  simp [processChunk, h, hseq]

/-- Accepted chunk whose transcription call raises: `last_sequence` is
already advanced, one `ERROR` notification is emitted, nothing is
persisted. -/
theorem processChunk_tr_error (cache : KCache) (st : ProcState) (sid : List Char)
    (seq : Int) (ts : ℚ) (fin : Bool) (fp : Option (List Char)) (e : List Char)
    (persist : Except (List Char) Unit)
    (sd : SessionData) (h : dictGet st sid = some sd) (hseq : sd.last_sequence < seq) :
    processChunk cache st sid seq ts fin fp (.error e) persist =
      (dictSet st sid { sd with last_sequence := seq },
       [⟨.errorNote, sid, .errorP e⟩], []) := by
  simp [processChunk, h, not_le.2 hseq]

/-- Accepted non-terminal chunk, successful transcription. -/
theorem processChunk_ok_nonfinal (cache : KCache) (st : ProcState) (sid : List Char)
    (seq : Int) (ts : ℚ) (fp : Option (List Char)) (segs : List TranscriptSegment)
    (persist : Except (List Char) Unit)
    (sd : SessionData) (h : dictGet st sid = some sd) (hseq : sd.last_sequence < seq) :
    processChunk cache st sid seq ts false fp (.ok segs) persist =
      (dictSet st sid { chunks := sd.chunks ++ [⟨seq, ts, (processSegments cache sid segs).1⟩],
                        last_sequence := seq },
       (processSegments cache sid segs).2.2 ++
         [⟨.partialTranscription, sid,
           .partialP (processSegments cache sid segs).1 (processSegments cache sid segs).2.1⟩],
       []) := by
  simp [processChunk, h, not_le.2 hseq, dictSet_dictSet]

/-- Accepted terminal chunk, successful transcription and persistence. -/
theorem processChunk_ok_final (cache : KCache) (st : ProcState) (sid : List Char)
    (seq : Int) (ts : ℚ) (fp : Option (List Char)) (segs : List TranscriptSegment)
    (sd : SessionData) (h : dictGet st sid = some sd) (hseq : sd.last_sequence < seq) :
    processChunk cache st sid seq ts true fp (.ok segs) (.ok ()) =
      (dictDel (dictSet st sid
          { chunks := sd.chunks ++ [⟨seq, ts, (processSegments cache sid segs).1⟩],
            last_sequence := seq }) sid,
       (processSegments cache sid segs).2.2 ++
         [⟨.transcriptionComplete, sid,
           .completeP (joinSpace ((finalizeSegments
               (sd.chunks ++ [⟨seq, ts, (processSegments cache sid segs).1⟩])).map
               (·.text)))
             (processSegments cache sid segs).2.1⟩],
       [{ session_id := sid, audio_file_path := fp,
          text := joinSpace ((finalizeSegments
              (sd.chunks ++ [⟨seq, ts, (processSegments cache sid segs).1⟩])).map
              (·.text)),
          language := some "en".toList,
          duration := ((finalizeSegments
              (sd.chunks ++ [⟨seq, ts, (processSegments cache sid segs).1⟩])).getLast?).map
              fun s => ((pyInt s.end_time : Int) : ℚ),
          metadata := none, is_final := true }]) := by
  simp only [processChunk, h, Option.isSome_some, if_true, not_le.2 hseq, if_false,
    dictSet_dictSet]
  cases hgl : (finalizeSegments
      (sd.chunks ++ [⟨seq, ts, (processSegments cache sid segs).1⟩])).getLast? with
  | none => simp [hgl]
  | some s => simp [hgl]

/-- Accepted terminal chunk, successful transcription, failing persistence:
the session entry survives with the chunk appended, and one `ERROR`
notification follows the per-keyword ones. -/
theorem processChunk_persist_error (cache : KCache) (st : ProcState) (sid : List Char)
    (seq : Int) (ts : ℚ) (fp : Option (List Char)) (segs : List TranscriptSegment)
    (e : List Char)
    (sd : SessionData) (h : dictGet st sid = some sd) (hseq : sd.last_sequence < seq) :
    processChunk cache st sid seq ts true fp (.ok segs) (.error e) =
      (dictSet st sid { chunks := sd.chunks ++ [⟨seq, ts, (processSegments cache sid segs).1⟩],
                        last_sequence := seq },
       (processSegments cache sid segs).2.2 ++ [⟨.errorNote, sid, .errorP e⟩],
       []) := by
  simp [processChunk, h, not_le.2 hseq, dictSet_dictSet]

/-! Helper lemmas about the fan-out registry and the keyword-cache loader. -/

theorem removeConn_eq_erase (conns : List Conn) (c : Conn) :
    removeConn conns c = conns.erase c := by
  unfold removeConn
  by_cases h : c ∈ conns
  · rw [if_pos h]
  · rw [if_neg h]
    exact (List.erase_of_not_mem h).symm

theorem removeConn_cons_ne (x c : Conn) (l : List Conn) (h : c ≠ x) :
    removeConn (x :: l) c = x :: removeConn l c := by
  rw [removeConn_eq_erase, removeConn_eq_erase]
  exact List.erase_cons_tail (by simpa using fun hh => h hh.symm)

/-- Removing a batch of elements that all satisfy `p` never touches a head
that does not satisfy `p`. -/
theorem foldl_removeConn_cons (p : Conn → Bool) :
    ∀ (cs : List Conn) (x : Conn) (l : List Conn),
    (∀ c ∈ cs, p c = true) → p x = false →
    cs.foldl removeConn (x :: l) = x :: cs.foldl removeConn l := by
  intro cs
  induction cs with
  | nil => intro x l _ _; rfl
  | cons c cs ih =>
    intro x l hcs hx
    have hc : p c = true := hcs c (List.mem_cons_self c cs)
    have hne : c ≠ x := fun hh => by rw [hh] at hc; rw [hx] at hc; cases hc
    simp only [List.foldl_cons, removeConn_cons_ne x c l hne]
    exact ih x (removeConn l c) (fun d hd => hcs d (List.mem_cons_of_mem c hd)) hx

/-- The pruning pass of `broadcast_notification`: removing, one at a time,
every element that satisfies `p` (in their list order) from the full list
leaves exactly the elements that do not satisfy `p`. -/
theorem foldl_removeConn_filter (p : Conn → Bool) :
    ∀ l : List Conn, (l.filter p).foldl removeConn l = l.filter fun c => !(p c) := by
  intro l
  induction l with
  | nil => rfl
  | cons x xs ih =>
    by_cases hp : p x = true
    · have hx : removeConn (x :: xs) x = xs := by
        rw [removeConn_eq_erase]
        exact List.erase_cons_head x xs
      simp only [List.filter_cons, hp, if_true, List.foldl_cons, hx, ih]
      simp [hp]
    · have hp' : p x = false := by revert hp; cases p x <;> simp
      simp only [List.filter_cons, hp', Bool.false_eq_true, if_false]
      rw [foldl_removeConn_cons p (xs.filter p) x xs
        (fun c hc => List.of_mem_filter hc) hp', ih]
      simp [hp']

/-- Shape of `broadcast_notification` when the session has registered
handles. -/
theorem broadcast_some (reg : Registry) (sid : List Char) (conns : List Conn)
    (h : dictGet reg sid = some conns) :
    broadcastNotification reg sid =
      (dictSet reg sid (conns.filter fun c => !c.fails),
       conns.filter fun c => !c.fails) := by
  simp [broadcastNotification, h, foldl_removeConn_filter (·.fails)]

/-- A failing talking-point fetch anywhere in the row list aborts the load
with the empty cache. -/
theorem loadLoop_error (ftp : Int → Except (List Char) (List TalkingPointRow)) :
    ∀ (rows : List KeywordRow) (cache : KCache),
    (∃ r ∈ rows, ∃ e, ftp r.id = .error e) → loadLoop cache ftp rows = [] := by
  intro rows
  induction rows with
  | nil => intro cache h; simp at h
  | cons r rs ih =>
    intro cache h
    unfold loadLoop
    cases hr : ftp r.id with
    | error e => rfl
    | ok tps =>
      rcases h with ⟨r', hr', e', he'⟩
      rcases List.mem_cons.1 hr' with rfl | hmem
      · rw [hr] at he'; cases he'
      · exact ih _ ⟨r', hmem, e', he'⟩

/-! Claim theorems. -/

/-- C2: for every session already present in `active_sessions`, a call to
`process_audio_chunk_and_save` whose sequence number is ≤ the session's
`last_sequence` returns with no effect at all: the whole processor state is
unchanged (in particular the session's `last_sequence` and buffered chunks),
no notification is emitted, nothing is persisted — and a resubmission of
the same chunk is rejected identically, so its segments can never reach a
finalized transcript. -/
theorem claim_c2_stale_rejected (cache : KCache) (st : ProcState) (sid : List Char)
    (seq : Int) (ts : ℚ) (fin : Bool) (fp : Option (List Char))
    (tr : Except (List Char) (List TranscriptSegment)) (persist : Except (List Char) Unit)
    (sd : SessionData) (h : dictGet st sid = some sd) (hseq : seq ≤ sd.last_sequence) :
    processChunk cache st sid seq ts fin fp tr persist = (st, [], []) ∧
    processChunk cache (processChunk cache st sid seq ts fin fp tr persist).1
      sid seq ts fin fp tr persist = (st, [], []) := by
  have h1 := processChunk_rejected cache st sid seq ts fin fp tr persist sd h hseq
  exact ⟨h1, by rw [h1]; exact processChunk_rejected cache st sid seq ts fin fp tr persist sd h hseq⟩

/-- C2 witness: a concrete stale chunk (sequence 3 against `last_sequence`
5) is dropped with no effect, twice. -/
theorem claim_c2_stale_rejected_witness :
    processChunk [] [("s1".toList, ⟨[], 5⟩)] "s1".toList 3 0 false none (.ok []) (.ok ()) =
      ([("s1".toList, ⟨[], 5⟩)], [], []) ∧
    processChunk []
      (processChunk [] [("s1".toList, ⟨[], 5⟩)] "s1".toList 3 0 false none (.ok []) (.ok ())).1
      "s1".toList 3 0 false none (.ok []) (.ok ()) = ([("s1".toList, ⟨[], 5⟩)], [], []) :=
  claim_c2_stale_rejected [] [("s1".toList, ⟨[], 5⟩)] "s1".toList 3 0 false none
    (.ok []) (.ok ()) ⟨[], 5⟩ (by decide) (by decide)

/-- C3 counterexample: when the transcription of an accepted chunk raises,
the claim says the session's in-memory pipeline state is removed
(`abandon`); in fact the session entry stays in `active_sessions` with its
`last_sequence` already advanced, while the single `ERROR` notification is
emitted.  Concrete input: fresh session `"s1"`, chunk 0, transcription
raising `"boom"`. -/
theorem claim_c3_counterexample :
    dictGet (processChunk [] [] "s1".toList 0 0 false none
        (.error "boom".toList) (.ok ())).1 "s1".toList
      = some { chunks := [], last_sequence := 0 } ∧
    (processChunk [] [] "s1".toList 0 0 false none
        (.error "boom".toList) (.ok ())).2.1
      = [⟨.errorNote, "s1".toList, .errorP "boom".toList⟩] := by
  decide

/-- C3 amended: when the transcription or persistence step of an accepted
chunk raises, the processor emits exactly one `ERROR` notification carrying
the stringified cause, persists nothing, and returns normally — but it does
NOT abandon the session's in-memory state: the session entry remains in
`active_sessions` with `last_sequence` advanced (and, on a persistence
failure, with the chunk already buffered).  On the whole-file path a raised
cause whose string is `"TRANSCRIPTION_COMPLETE"` is reported as a
completion-status notification instead of an `ERROR` one. -/
theorem claim_c3_amended (cache : KCache) (st : ProcState) (sid : List Char)
    (seq : Int) (ts : ℚ) (fin : Bool) (fp : Option (List Char)) (e : List Char)
    (persist : Except (List Char) Unit) (segs : List TranscriptSegment)
    (sd : SessionData) (h : dictGet st sid = some sd) (hseq : sd.last_sequence < seq) :
    ((processChunk cache st sid seq ts fin fp (.error e) persist).2.1
        = [⟨.errorNote, sid, .errorP e⟩] ∧
      (processChunk cache st sid seq ts fin fp (.error e) persist).2.2 = [] ∧
      dictGet (processChunk cache st sid seq ts fin fp (.error e) persist).1 sid
        = some { sd with last_sequence := seq }) ∧
    ((processChunk cache st sid seq ts true fp (.ok segs) (.error e)).2.1.filter
        (fun n => decide (n.ntype = NType.errorNote))
        = [⟨.errorNote, sid, .errorP e⟩] ∧
      (processChunk cache st sid seq ts true fp (.ok segs) (.error e)).2.2 = [] ∧
      dictGet (processChunk cache st sid seq ts true fp (.ok segs) (.error e)).1 sid
        = some { chunks := sd.chunks ++ [⟨seq, ts, (processSegments cache sid segs).1⟩],
                 last_sequence := seq }) ∧
    (∀ (fpath : List Char) (persist2 : Except (List Char) Unit),
      processFile cache sid fpath (.error e) persist2 =
        ((if e = "TRANSCRIPTION_COMPLETE".toList
          then [⟨.transcriptionComplete, sid, .completeStatusP⟩]
          else [⟨.errorNote, sid, .errorP e⟩]), [])) := by
  refine ⟨?_, ?_, ?_⟩
  · rw [processChunk_tr_error cache st sid seq ts fin fp e persist sd h hseq]
    exact ⟨rfl, rfl, dictGet_dictSet_self st sid _⟩
  · rw [processChunk_persist_error cache st sid seq ts fp segs e sd h hseq]
    refine ⟨?_, rfl, dictGet_dictSet_self st sid _⟩
    rw [List.filter_append]
    have hnil : (processSegments cache sid segs).2.2.filter
        (fun n => decide (n.ntype = NType.errorNote)) = [] := by
      rw [List.filter_eq_nil_iff]
      intro ev hev
      rw [processSegments_events_ntype cache sid segs ev hev]
      decide
    rw [hnil]
    rfl
  · intro fpath persist2
    rfl

/-- C3 witness: concrete failing chunk for session `"s1"` with one buffered
chunk, and a concrete failing whole-file upload. -/
theorem claim_c3_amended_witness :
    ((processChunk [] [("s1".toList, ⟨[], 0⟩)] "s1".toList 1 0 false none
        (.error "boom".toList) (.ok ())).2.1
        = [⟨.errorNote, "s1".toList, .errorP "boom".toList⟩] ∧
      (processChunk [] [("s1".toList, ⟨[], 0⟩)] "s1".toList 1 0 false none
        (.error "boom".toList) (.ok ())).2.2 = [] ∧
      dictGet (processChunk [] [("s1".toList, ⟨[], 0⟩)] "s1".toList 1 0 false none
        (.error "boom".toList) (.ok ())).1 "s1".toList
        = some { chunks := [], last_sequence := 1 }) ∧
    ((processChunk [] [("s1".toList, ⟨[], 0⟩)] "s1".toList 1 0 true none
        (.ok []) (.error "boom".toList)).2.1.filter
        (fun n => decide (n.ntype = NType.errorNote))
        = [⟨.errorNote, "s1".toList, .errorP "boom".toList⟩] ∧
      (processChunk [] [("s1".toList, ⟨[], 0⟩)] "s1".toList 1 0 true none
        (.ok []) (.error "boom".toList)).2.2 = [] ∧
      dictGet (processChunk [] [("s1".toList, ⟨[], 0⟩)] "s1".toList 1 0 true none
        (.ok []) (.error "boom".toList)).1 "s1".toList
        = some { chunks := [⟨1, 0, []⟩], last_sequence := 1 }) ∧
    (∀ (fpath : List Char) (persist2 : Except (List Char) Unit),
      processFile [] "s1".toList fpath (.error "boom".toList) persist2 =
        ((if "boom".toList = "TRANSCRIPTION_COMPLETE".toList
          then [⟨.transcriptionComplete, "s1".toList, .completeStatusP⟩]
          else [⟨.errorNote, "s1".toList, .errorP "boom".toList⟩]), [])) :=
  claim_c3_amended [] [("s1".toList, ⟨[], 0⟩)] "s1".toList 1 0 false none
    "boom".toList (.ok ()) [] ⟨[], 0⟩ (by decide) (by decide)

theorem getLast?_append_singleton {α : Type} (l : List α) (x : α) :
    (l ++ [x]).getLast? = some x :=
  List.getLast?_concat _

/-- C4 counterexample: the persisted duration is `int(last_segment.end_time)`,
a truncation, not the end time itself.  Concrete input: a single terminal
chunk whose only segment ends at 2.5 s; the persisted duration is 2 ≠ 2.5. -/
theorem claim_c4_counterexample :
    ((processChunk [] [] "s1".toList 0 0 true none
        (.ok [⟨"hello".toList, 0, mkRat 5 2, none, false, none, none⟩]) (.ok ())).2.2.map
      (·.duration)) = [some ((2 : Int) : ℚ)] ∧
    (finalizeSegments
        [⟨0, 0, [⟨"hello".toList, 0, mkRat 5 2, none, false, none, some []⟩]⟩]).map
      (·.end_time) = [mkRat 5 2] ∧
    ¬ (((2 : Int) : ℚ) = mkRat 5 2) := by
  decide

/-- C4 amended: on a successfully processed terminal chunk the persisted
transcript text is the single-space join of the segment texts in ascending
sequence order, the persisted duration is the integer truncation of the last
ordered segment's end time (absent when there are no segments), the last
emitted notification is `TRANSCRIPTION_COMPLETE` carrying the full text, and
the session's in-memory state is destroyed. -/
theorem claim_c4_amended (cache : KCache) (st : ProcState) (sid : List Char)
    (seq : Int) (ts : ℚ) (fp : Option (List Char)) (segs : List TranscriptSegment)
    (sd : SessionData) (h : dictGet st sid = some sd) (hseq : sd.last_sequence < seq)
    (hnd : dictNodup st) :
    (processChunk cache st sid seq ts true fp (.ok segs) (.ok ())).2.2.map (·.text) =
      [joinSpace ((((sortChunksAsc
          (sd.chunks ++ [⟨seq, ts, (processSegments cache sid segs).1⟩])).flatMap
          (·.segments)).map (·.text)))] ∧
    (processChunk cache st sid seq ts true fp (.ok segs) (.ok ())).2.2.map (·.duration) =
      [(((sortChunksAsc
          (sd.chunks ++ [⟨seq, ts, (processSegments cache sid segs).1⟩])).flatMap
          (·.segments)).getLast?).map fun s => ((pyInt s.end_time : Int) : ℚ)] ∧
    (processChunk cache st sid seq ts true fp (.ok segs) (.ok ())).2.1.getLast? =
      some ⟨.transcriptionComplete, sid,
        .completeP (joinSpace ((((sortChunksAsc
            (sd.chunks ++ [⟨seq, ts, (processSegments cache sid segs).1⟩])).flatMap
            (·.segments)).map (·.text))))
          (processSegments cache sid segs).2.1⟩ ∧
    dictGet (processChunk cache st sid seq ts true fp (.ok segs) (.ok ())).1 sid = none := by
  rw [processChunk_ok_final cache st sid seq ts fp segs sd h hseq]
  refine ⟨rfl, rfl, ?_, ?_⟩
  · exact getLast?_append_singleton _ _
  · exact dictGet_dictDel_self _ _ (dictNodup_dictSet st sid _ hnd)

/-- C4 witness: session `"s1"` has buffered chunk 0 (`"hello"`), the
terminal chunk 1 says `"world"` with end time 2.5 s; the persisted
transcript is `"hello world"` with duration 2, the completion event carries
the full text, and the session entry is gone. -/
theorem claim_c4_amended_witness :
    (processChunk [] [("s1".toList,
        ⟨[⟨0, 0, [⟨"hello".toList, 0, mkRat 1 1, none, false, none, some []⟩]⟩], 0⟩)]
      "s1".toList 1 (mkRat 1 1) true none
      (.ok [⟨"world".toList, mkRat 1 1, mkRat 5 2, none, false, none, none⟩])
      (.ok ())).2.2.map (·.text) = ["hello world".toList] ∧
    (processChunk [] [("s1".toList,
        ⟨[⟨0, 0, [⟨"hello".toList, 0, mkRat 1 1, none, false, none, some []⟩]⟩], 0⟩)]
      "s1".toList 1 (mkRat 1 1) true none
      (.ok [⟨"world".toList, mkRat 1 1, mkRat 5 2, none, false, none, none⟩])
      (.ok ())).2.2.map (·.duration) = [some ((2 : Int) : ℚ)] ∧
    (processChunk [] [("s1".toList,
        ⟨[⟨0, 0, [⟨"hello".toList, 0, mkRat 1 1, none, false, none, some []⟩]⟩], 0⟩)]
      "s1".toList 1 (mkRat 1 1) true none
      (.ok [⟨"world".toList, mkRat 1 1, mkRat 5 2, none, false, none, none⟩])
      (.ok ())).2.1.getLast? =
      some ⟨.transcriptionComplete, "s1".toList,
        .completeP "hello world".toList []⟩ ∧
    dictGet (processChunk [] [("s1".toList,
        ⟨[⟨0, 0, [⟨"hello".toList, 0, mkRat 1 1, none, false, none, some []⟩]⟩], 0⟩)]
      "s1".toList 1 (mkRat 1 1) true none
      (.ok [⟨"world".toList, mkRat 1 1, mkRat 5 2, none, false, none, none⟩])
      (.ok ())).1 "s1".toList = none := by
  obtain ⟨h1, h2, h3, h4⟩ := claim_c4_amended [] [("s1".toList,
      ⟨[⟨0, 0, [⟨"hello".toList, 0, mkRat 1 1, none, false, none, some []⟩]⟩], 0⟩)]
    "s1".toList 1 (mkRat 1 1) none
    [⟨"world".toList, mkRat 1 1, mkRat 5 2, none, false, none, none⟩]
    ⟨[⟨0, 0, [⟨"hello".toList, 0, mkRat 1 1, none, false, none, some []⟩]⟩], 0⟩
    (by decide) (by decide) (by decide)
  refine ⟨?_, ?_, ?_, h4⟩
  · rw [h1]; decide
  · rw [h2]; decide
  · rw [h3]; decide

/-- C1: on a successfully processed terminal chunk, when the buffered
chunks (including the terminal one) carry pairwise distinct sequence
numbers, the finalized segment list (`all_segments`, `finalizeSegments`) is
the concatenation of the chunks' segment lists in ascending sequence order;
its observable footprint — the persisted transcript text and the
`TRANSCRIPTION_COMPLETE` event, the single-space join of exactly that
ordered list's texts — and the whole emitted/persisted output are invariant
under any permutation of the buffered chunks, i.e. independent of the order
in which the chunks were recorded.  (The ordered list itself is not
persisted as metadata: the `meta_data=` kwarg is dropped, see
`TranscriptRow`.) -/
theorem claim_c1_finalize_order (cache : KCache) (st : ProcState) (sid : List Char)
    (seq : Int) (ts : ℚ) (fp : Option (List Char)) (segs : List TranscriptSegment)
    (sd : SessionData) (h : dictGet st sid = some sd) (hseq : sd.last_sequence < seq)
    (hdist : ((sd.chunks ++ [ChunkEntry.mk seq ts (processSegments cache sid segs).1]).map
        (·.sequence_number)).Nodup) :
    ∃ scs : List ChunkEntry,
      scs.Perm (sd.chunks ++ [ChunkEntry.mk seq ts (processSegments cache sid segs).1]) ∧
      scs.Pairwise (fun a b => a.sequence_number ≤ b.sequence_number) ∧
      finalizeSegments
          (sd.chunks ++ [ChunkEntry.mk seq ts (processSegments cache sid segs).1]) =
        scs.flatMap (·.segments) ∧
      (processChunk cache st sid seq ts true fp (.ok segs) (.ok ())).2.2.map (·.text) =
        [joinSpace ((finalizeSegments
            (sd.chunks ++ [ChunkEntry.mk seq ts (processSegments cache sid segs).1])).map
            (·.text))] ∧
      (processChunk cache st sid seq ts true fp (.ok segs) (.ok ())).2.1.getLast? =
        some ⟨.transcriptionComplete, sid,
          .completeP (joinSpace ((finalizeSegments
              (sd.chunks ++ [ChunkEntry.mk seq ts (processSegments cache sid segs).1])).map
              (·.text)))
            (processSegments cache sid segs).2.1⟩ ∧
      ∀ cs' : List ChunkEntry, cs'.Perm sd.chunks →
        (processChunk cache (dictSet st sid ⟨cs', sd.last_sequence⟩) sid
            seq ts true fp (.ok segs) (.ok ())).2 =
          (processChunk cache st sid seq ts true fp (.ok segs) (.ok ())).2 := by
  refine ⟨sortChunksAsc (sd.chunks ++ [ChunkEntry.mk seq ts (processSegments cache sid segs).1]),
    sortChunksAsc_perm _, sortChunksAsc_sorted _, rfl, ?_, ?_, ?_⟩
  · rw [processChunk_ok_final cache st sid seq ts fp segs sd h hseq]
    rfl
  · rw [processChunk_ok_final cache st sid seq ts fp segs sd h hseq]
    exact getLast?_append_singleton _ _
  · intro cs' hcs'
    have hbuf : (cs' ++ [ChunkEntry.mk seq ts (processSegments cache sid segs).1]).Perm
        (sd.chunks ++ [ChunkEntry.mk seq ts (processSegments cache sid segs).1]) :=
      hcs'.append_right _
    have hn' : ((cs' ++ [ChunkEntry.mk seq ts (processSegments cache sid segs).1]).map
        (·.sequence_number)).Nodup := ((hbuf.map _).nodup_iff).2 hdist
    have heq := sortChunksAsc_congr_perm hbuf hn'
    rw [processChunk_ok_final cache (dictSet st sid ⟨cs', sd.last_sequence⟩) sid seq ts fp
        segs ⟨cs', sd.last_sequence⟩ (dictGet_dictSet_self st sid _) hseq,
      processChunk_ok_final cache st sid seq ts fp segs sd h hseq]
    simp only [finalizeSegments, heq]

/-- C1 witness: a session buffer holding chunk 1 (`"world"`) receives the
terminal chunk 2 (no segments); the finalized list is ascending, is stable
under permuting the buffer, and the persisted text and completion event
carry the join of its texts. -/
theorem claim_c1_finalize_order_witness :
    ∃ scs : List ChunkEntry,
      scs.Perm ([⟨1, 0, [⟨"world".toList, mkRat 1 1, mkRat 2 1, none, false, none, none⟩]⟩] ++
        [ChunkEntry.mk 2 0 (processSegments [] "s1".toList []).1]) ∧
      scs.Pairwise (fun a b => a.sequence_number ≤ b.sequence_number) ∧
      finalizeSegments
          ([⟨1, 0, [⟨"world".toList, mkRat 1 1, mkRat 2 1, none, false, none, none⟩]⟩] ++
            [ChunkEntry.mk 2 0 (processSegments [] "s1".toList []).1]) =
        scs.flatMap (·.segments) ∧
      (processChunk [] [("s1".toList,
          ⟨[⟨1, 0, [⟨"world".toList, mkRat 1 1, mkRat 2 1, none, false, none, none⟩]⟩], 1⟩)]
        "s1".toList 2 0 true none (.ok []) (.ok ())).2.2.map (·.text) =
        [joinSpace ((finalizeSegments
            ([⟨1, 0, [⟨"world".toList, mkRat 1 1, mkRat 2 1, none, false, none, none⟩]⟩] ++
              [ChunkEntry.mk 2 0 (processSegments [] "s1".toList []).1])).map
            (·.text))] ∧
      (processChunk [] [("s1".toList,
          ⟨[⟨1, 0, [⟨"world".toList, mkRat 1 1, mkRat 2 1, none, false, none, none⟩]⟩], 1⟩)]
        "s1".toList 2 0 true none (.ok []) (.ok ())).2.1.getLast? =
        some ⟨.transcriptionComplete, "s1".toList,
          .completeP (joinSpace ((finalizeSegments
              ([⟨1, 0, [⟨"world".toList, mkRat 1 1, mkRat 2 1, none, false, none, none⟩]⟩] ++
                [ChunkEntry.mk 2 0 (processSegments [] "s1".toList []).1])).map
              (·.text)))
            (processSegments [] "s1".toList []).2.1⟩ ∧
      ∀ cs' : List ChunkEntry,
        cs'.Perm [⟨1, 0, [⟨"world".toList, mkRat 1 1, mkRat 2 1, none, false, none, none⟩]⟩] →
        (processChunk []
            (dictSet [("s1".toList,
              ⟨[⟨1, 0, [⟨"world".toList, mkRat 1 1, mkRat 2 1, none, false, none, none⟩]⟩], 1⟩)]
              "s1".toList ⟨cs', 1⟩) "s1".toList 2 0 true none (.ok []) (.ok ())).2 =
          (processChunk [] [("s1".toList,
              ⟨[⟨1, 0, [⟨"world".toList, mkRat 1 1, mkRat 2 1, none, false, none, none⟩]⟩], 1⟩)]
            "s1".toList 2 0 true none (.ok []) (.ok ())).2 :=
  claim_c1_finalize_order [] [("s1".toList,
      ⟨[⟨1, 0, [⟨"world".toList, mkRat 1 1, mkRat 2 1, none, false, none, none⟩]⟩], 1⟩)]
    "s1".toList 2 0 none []
    ⟨[⟨1, 0, [⟨"world".toList, mkRat 1 1, mkRat 2 1, none, false, none, none⟩]⟩], 1⟩
    (by decide) (by decide) (by decide)

/-- C7 counterexample: the `TRANSCRIPTION_COMPLETE` notification carries only
the terminal chunk's own hit list, not the aggregated hits of all the
session's chunks.  Concrete input: chunk 0 (`"hi there"`) matches the
indexed keyword `"hi"`, the terminal chunk 1 (`"bye"`) matches nothing; the
completion event carries the empty hit list even though the session's
chunks produced a hit. -/
theorem claim_c7_counterexample :
    (processChunk [("hi".toList, ⟨1, "hi".toList, none, mkRat 7 10, []⟩)]
        (processChunk [("hi".toList, ⟨1, "hi".toList, none, mkRat 7 10, []⟩)] []
          "s1".toList 0 0 false none
          (.ok [⟨"hi there".toList, 0, mkRat 1 1, none, false, none, none⟩]) (.ok ())).1
        "s1".toList 1 0 true none
        (.ok [⟨"bye".toList, mkRat 1 1, mkRat 2 1, none, false, none, none⟩]) (.ok ())).2.1
      = [⟨.transcriptionComplete, "s1".toList,
          .completeP "hi there bye".toList []⟩] ∧
    detect_keywords [("hi".toList, ⟨1, "hi".toList, none, mkRat 7 10, []⟩)]
      (some "hi there".toList) ≠ [] := by
  decide

/-- C7 amended: the hit list attached to a chunk is the concatenation (not
a deduplicated union) of its segments' hit lists in segment order, each
segment carries its own hits, the `PARTIAL_TRANSCRIPTION` notification of a
non-terminal chunk carries exactly this chunk-level list — and the
`TRANSCRIPTION_COMPLETE` notification of the terminal chunk carries only the
terminal chunk's own list, not the session-wide aggregate. -/
theorem claim_c7_amended (cache : KCache) (st : ProcState) (sid : List Char)
    (seq : Int) (ts : ℚ) (fp : Option (List Char)) (segs : List TranscriptSegment)
    (persist : Except (List Char) Unit)
    (sd : SessionData) (h : dictGet st sid = some sd) (hseq : sd.last_sequence < seq) :
    (processSegments cache sid segs).2.1 =
      (segs.map fun s => detect_keywords cache (some s.text)).flatten ∧
    (processSegments cache sid segs).1 =
      (segs.map fun s =>
        { s with detected_keywords := some (detect_keywords cache (some s.text)) }) ∧
    (processChunk cache st sid seq ts false fp (.ok segs) persist).2.1.getLast? =
      some ⟨.partialTranscription, sid,
        .partialP (processSegments cache sid segs).1
          ((segs.map fun s => detect_keywords cache (some s.text)).flatten)⟩ ∧
    (∃ txt, (processChunk cache st sid seq ts true fp (.ok segs) (.ok ())).2.1.getLast? =
      some ⟨.transcriptionComplete, sid,
        .completeP txt ((segs.map fun s => detect_keywords cache (some s.text)).flatten)⟩) := by
  refine ⟨processSegments_hits cache sid segs, processSegments_fst cache sid segs, ?_, ?_⟩
  · rw [processChunk_ok_nonfinal cache st sid seq ts fp segs persist sd h hseq,
      ← processSegments_hits cache sid segs]
    exact getLast?_append_singleton _ _
  · refine ⟨joinSpace ((((sortChunksAsc
        (sd.chunks ++ [ChunkEntry.mk seq ts (processSegments cache sid segs).1])).flatMap
        (·.segments)).map (·.text))), ?_⟩
    rw [processChunk_ok_final cache st sid seq ts fp segs sd h hseq,
      ← processSegments_hits cache sid segs]
    exact getLast?_append_singleton _ _

/-- C7 witness: a chunk whose two segments both contain the keyword `"hi"`
gets the duplicated hit list, and a terminal chunk reports only its own
hits. -/
theorem claim_c7_amended_witness :
    (processSegments [("hi".toList, ⟨1, "hi".toList, none, mkRat 7 10, []⟩)] "s1".toList
        [⟨"hi you".toList, 0, mkRat 1 1, none, false, none, none⟩,
         ⟨"hi again".toList, mkRat 1 1, mkRat 2 1, none, false, none, none⟩]).2.1 =
      [⟨1, "hi".toList, none, mkRat 1 1, []⟩, ⟨1, "hi".toList, none, mkRat 1 1, []⟩] ∧
    (∃ txt, (processChunk [("hi".toList, ⟨1, "hi".toList, none, mkRat 7 10, []⟩)]
        [("s1".toList, ⟨[], 0⟩)] "s1".toList 1 0 true none
        (.ok [⟨"hi you".toList, 0, mkRat 1 1, none, false, none, none⟩,
              ⟨"hi again".toList, mkRat 1 1, mkRat 2 1, none, false, none, none⟩])
        (.ok ())).2.1.getLast? =
      some ⟨.transcriptionComplete, "s1".toList,
        .completeP txt
          [⟨1, "hi".toList, none, mkRat 1 1, []⟩, ⟨1, "hi".toList, none, mkRat 1 1, []⟩]⟩) := by
  obtain ⟨h1, h2, h3, h4⟩ := claim_c7_amended
    [("hi".toList, ⟨1, "hi".toList, none, mkRat 7 10, []⟩)]
    [("s1".toList, ⟨[], 0⟩)] "s1".toList 1 0 none
    [⟨"hi you".toList, 0, mkRat 1 1, none, false, none, none⟩,
     ⟨"hi again".toList, mkRat 1 1, mkRat 2 1, none, false, none, none⟩]
    (.ok ()) ⟨[], 0⟩ (by decide) (by decide)
  constructor
  · rw [h1]; decide
  · obtain ⟨txt, h4'⟩ := h4
    refine ⟨txt, ?_⟩
    convert h4' using 4

theorem wholeWordMatch_nil (k : List Char) : wholeWordMatch k [] = false := by
  simp [wholeWordMatch, List.range_succ, boundaryAt, wordAt]

/-- C5: keyword matching is case-insensitive; `None` or empty text yields the
empty list without error; a whole-word occurrence of an indexed keyword
yields a confidence-1.0 hit regardless of its threshold; a substring-only
occurrence yields a confidence-0.8 hit exactly when 0.8 ≥ the keyword's
configured threshold.  `huniq` states that `kd` is the only cache entry with
its id (ids are database primary keys). -/
theorem claim_c5_matching (cache : KCache) (t k : List Char) (kd : KeywordData)
    (hmem : (k, kd) ∈ cache)
    (huniq : ∀ p ∈ cache, p.2.id = kd.id → p.2 = kd) :
    (detect_keywords cache none = [] ∧ detect_keywords cache (some []) = []) ∧
    detect_keywords cache (some t) = detect_keywords cache (some (pyLower t)) ∧
    (wholeWordMatch k (pyLower t) = true →
      mkHit kd (mkRat 1 1) ∈ detect_keywords cache (some t)) ∧
    (t ≠ [] → wholeWordMatch k (pyLower t) = false → substrMatch k (pyLower t) = true →
      (mkHit kd (mkRat 8 10) ∈ detect_keywords cache (some t) ↔
        mkRat 8 10 ≥ kd.threshold)) := by
  refine ⟨⟨rfl, by simp [detect_keywords]⟩, ?_, ?_, ?_⟩
  · by_cases ht : t = []
    · subst ht; rfl
    · have ht' : pyLower t ≠ [] := fun hh => ht ((pyLower_eq_nil_iff t).1 hh)
      simp only [detect_keywords, if_neg ht, if_neg ht', pyLower_idem]
  · intro hw
    have ht : t ≠ [] := by
      intro hh
      subst hh
      rw [show pyLower [] = [] from rfl, wholeWordMatch_nil] at hw
      cases hw
    simp only [detect_keywords, if_neg ht]
    rw [mem_sortHitsDesc]
    unfold scanHits
    rw [List.mem_flatMap]
    exact ⟨(k, kd), hmem, by simp [hw]⟩
  · intro ht hw hs
    constructor
    · intro hin
      simp only [detect_keywords, if_neg ht] at hin
      rw [mem_sortHitsDesc] at hin
      unfold scanHits at hin
      obtain ⟨p, hp, hmemp⟩ := List.mem_flatMap.1 hin
      by_cases hw' : wholeWordMatch p.1 (pyLower t)
      · rw [if_pos hw'] at hmemp
        have hconf := congrArg KeywordHit.confidence (List.mem_singleton.1 hmemp)
        simp only [mkHit] at hconf
        exact absurd hconf (by decide)
      · rw [if_neg hw'] at hmemp
        by_cases hs' : substrMatch p.1 (pyLower t)
        · rw [if_pos hs'] at hmemp
          by_cases hth : mkRat 8 10 ≥ p.2.threshold
          · rw [if_pos hth] at hmemp
            have hid := congrArg KeywordHit.id (List.mem_singleton.1 hmemp)
            have hpd : p.2 = kd := huniq p hp (by simpa [mkHit] using hid.symm)
            rwa [hpd] at hth
          · rw [if_neg hth] at hmemp
            cases hmemp
        · rw [if_neg hs'] at hmemp
          cases hmemp
    · intro hth
      simp only [detect_keywords, if_neg ht]
      rw [mem_sortHitsDesc]
      unfold scanHits
      rw [List.mem_flatMap]
      exact ⟨(k, kd), hmem, by simp [hw, hs, hth]⟩

/-- C5 witness: the spec's own example — keyword `"pricing"` with threshold
0.9 against `"repricings happen"`, a substring-only occurrence, so the hit
is kept exactly when 0.8 ≥ 0.9 (it is not). -/
theorem claim_c5_matching_witness :
    (detect_keywords [("pricing".toList, ⟨1, "pricing".toList, none, mkRat 9 10, []⟩)]
        none = [] ∧
      detect_keywords [("pricing".toList, ⟨1, "pricing".toList, none, mkRat 9 10, []⟩)]
        (some []) = []) ∧
    detect_keywords [("pricing".toList, ⟨1, "pricing".toList, none, mkRat 9 10, []⟩)]
        (some "repricings happen".toList) =
      detect_keywords [("pricing".toList, ⟨1, "pricing".toList, none, mkRat 9 10, []⟩)]
        (some (pyLower "repricings happen".toList)) ∧
    (wholeWordMatch "pricing".toList (pyLower "repricings happen".toList) = true →
      mkHit ⟨1, "pricing".toList, none, mkRat 9 10, []⟩ (mkRat 1 1) ∈
        detect_keywords [("pricing".toList, ⟨1, "pricing".toList, none, mkRat 9 10, []⟩)]
          (some "repricings happen".toList)) ∧
    ("repricings happen".toList ≠ [] →
      wholeWordMatch "pricing".toList (pyLower "repricings happen".toList) = false →
      substrMatch "pricing".toList (pyLower "repricings happen".toList) = true →
      (mkHit ⟨1, "pricing".toList, none, mkRat 9 10, []⟩ (mkRat 8 10) ∈
          detect_keywords [("pricing".toList, ⟨1, "pricing".toList, none, mkRat 9 10, []⟩)]
            (some "repricings happen".toList) ↔
        mkRat 8 10 ≥ (⟨1, "pricing".toList, none, mkRat 9 10, []⟩ : KeywordData).threshold)) :=
  claim_c5_matching [("pricing".toList, ⟨1, "pricing".toList, none, mkRat 9 10, []⟩)]
    "repricings happen".toList "pricing".toList ⟨1, "pricing".toList, none, mkRat 9 10, []⟩
    (by decide) (by decide)

/-- C8: the list returned by `detect_keywords` is sorted by descending
confidence, and for every confidence value the hits at that confidence
appear in exactly the order the cache scan produced them (insertion order of
the keyword index) — the sort is stable, so the head is a maximal-confidence
hit from the earliest-inserted such keyword. -/
theorem claim_c8_ordering (cache : KCache) (t : List Char) :
    ((detect_keywords cache (some t)).Pairwise fun a b => b.confidence ≤ a.confidence) ∧
    (t ≠ [] → ∀ c : ℚ,
      (detect_keywords cache (some t)).filter (fun h => decide (h.confidence = c)) =
        (scanHits cache (pyLower t)).filter fun h => decide (h.confidence = c)) := by
  constructor
  · by_cases ht : t = []
    · subst ht; simp [detect_keywords]
    · simp only [detect_keywords, if_neg ht]
      exact sortHitsDesc_sorted _
  · intro ht c
    simp only [detect_keywords, if_neg ht]
    exact filter_sortHitsDesc _ c

/-- C8 witness: two keywords, the later-inserted one matching at higher
confidence; the returned order is by confidence, ties by insertion order. -/
theorem claim_c8_ordering_witness :
    ((detect_keywords [("bet".toList, ⟨1, "bet".toList, none, mkRat 7 10, []⟩),
        ("alpha".toList, ⟨2, "alpha".toList, none, mkRat 7 10, []⟩)]
      (some "alpha bets".toList)).Pairwise fun a b => b.confidence ≤ a.confidence) ∧
    (detect_keywords [("bet".toList, ⟨1, "bet".toList, none, mkRat 7 10, []⟩),
        ("alpha".toList, ⟨2, "alpha".toList, none, mkRat 7 10, []⟩)]
      (some "alpha bets".toList)).filter (fun h => decide (h.confidence = mkRat 8 10)) =
      (scanHits [("bet".toList, ⟨1, "bet".toList, none, mkRat 7 10, []⟩),
        ("alpha".toList, ⟨2, "alpha".toList, none, mkRat 7 10, []⟩)]
        (pyLower "alpha bets".toList)).filter fun h => decide (h.confidence = mkRat 8 10) :=
  ⟨(claim_c8_ordering [("bet".toList, ⟨1, "bet".toList, none, mkRat 7 10, []⟩),
      ("alpha".toList, ⟨2, "alpha".toList, none, mkRat 7 10, []⟩)]
      "alpha bets".toList).1,
   (claim_c8_ordering [("bet".toList, ⟨1, "bet".toList, none, mkRat 7 10, []⟩),
      ("alpha".toList, ⟨2, "alpha".toList, none, mkRat 7 10, []⟩)]
      "alpha bets".toList).2 (by decide) (mkRat 8 10)⟩

/-- C6: broadcasting to a session delivers the event to exactly the
non-throwing handles in registration order (one handle's failure never
blocks the others or aborts the publish), afterwards the session's registry
entry holds exactly the surviving handles, and a second broadcast reaches
exactly those survivors while leaving the registry unchanged. -/
theorem claim_c6_fanout (reg : Registry) (sid : List Char) (conns : List Conn)
    (h : dictGet reg sid = some conns) :
    (broadcastNotification reg sid).2 = conns.filter (fun c => !c.fails) ∧
    dictGet (broadcastNotification reg sid).1 sid =
      some (conns.filter fun c => !c.fails) ∧
    (broadcastNotification (broadcastNotification reg sid).1 sid).2 =
      conns.filter (fun c => !c.fails) ∧
    (broadcastNotification (broadcastNotification reg sid).1 sid).1 =
      (broadcastNotification reg sid).1 := by
  have hb := broadcast_some reg sid conns h
  have hsurv : (conns.filter fun c => !c.fails).filter (fun c => !c.fails) =
      conns.filter fun c => !c.fails :=
    List.filter_eq_self.2 fun a ha => (List.mem_filter.1 ha).2
  have hb2 := broadcast_some (broadcastNotification reg sid).1 sid
    (conns.filter fun c => !c.fails) (by rw [hb]; exact dictGet_dictSet_self reg sid _)
  refine ⟨by rw [hb], by rw [hb]; exact dictGet_dictSet_self reg sid _, ?_, ?_⟩
  · rw [hb2, hsurv]
  · rw [hb2, hsurv, hb, dictSet_dictSet]

/-- C6 witness: the spec's example — session `"abc"` with three registered
handles of which the middle one throws; delivery reaches the other two, the
thrower is pruned, and a second publish reaches exactly the two
survivors. -/
theorem claim_c6_fanout_witness :
    (broadcastNotification [("abc".toList, [⟨1, false⟩, ⟨2, true⟩, ⟨3, false⟩])]
        "abc".toList).2 =
      [⟨1, false⟩, ⟨2, true⟩, ⟨3, false⟩].filter (fun c => !c.fails) ∧
    dictGet (broadcastNotification [("abc".toList, [⟨1, false⟩, ⟨2, true⟩, ⟨3, false⟩])]
        "abc".toList).1 "abc".toList =
      some ([⟨1, false⟩, ⟨2, true⟩, ⟨3, false⟩].filter fun c => !c.fails) ∧
    (broadcastNotification (broadcastNotification
        [("abc".toList, [⟨1, false⟩, ⟨2, true⟩, ⟨3, false⟩])] "abc".toList).1
        "abc".toList).2 =
      [⟨1, false⟩, ⟨2, true⟩, ⟨3, false⟩].filter (fun c => !c.fails) ∧
    (broadcastNotification (broadcastNotification
        [("abc".toList, [⟨1, false⟩, ⟨2, true⟩, ⟨3, false⟩])] "abc".toList).1
        "abc".toList).1 =
      (broadcastNotification [("abc".toList, [⟨1, false⟩, ⟨2, true⟩, ⟨3, false⟩])]
        "abc".toList).1 :=
  claim_c6_fanout [("abc".toList, [⟨1, false⟩, ⟨2, true⟩, ⟨3, false⟩])] "abc".toList
    [⟨1, false⟩, ⟨2, true⟩, ⟨3, false⟩] (by decide)

/-- C10: publishing never deletes a session's registry key — any registered
key survives a broadcast, and when every subscriber of the published session
throws, the key afterwards maps to the empty list.  Only the WebSocket
disconnect cleanup deletes the key, and exactly when the subscriber list
becomes empty; when it stays non-empty the key remains, mapping to the list
with the departing handle removed. -/
theorem claim_c10_key_lifecycle :
    (∀ (reg : Registry) (sid s' : List Char),
      (dictGet reg s').isSome → (dictGet (broadcastNotification reg sid).1 s').isSome) ∧
    (∀ (reg : Registry) (sid : List Char) (conns : List Conn),
      dictGet reg sid = some conns → (∀ c ∈ conns, c.fails = true) →
      dictGet (broadcastNotification reg sid).1 sid = some []) ∧
    (∀ (reg : Registry) (sid : List Char) (ws : Conn) (conns : List Conn),
      dictNodup reg → dictGet reg sid = some conns → conns.erase ws = [] →
      dictGet (wsDisconnectCleanup reg sid ws) sid = none) ∧
    (∀ (reg : Registry) (sid : List Char) (ws : Conn) (conns : List Conn),
      dictGet reg sid = some conns → conns.erase ws ≠ [] →
      dictGet (wsDisconnectCleanup reg sid ws) sid = some (conns.erase ws)) := by
  refine ⟨?_, ?_, ?_, ?_⟩
  · intro reg sid s' hs
    cases hd : dictGet reg sid with
    | none => simpa [broadcastNotification, hd] using hs
    | some conns =>
      rw [broadcast_some reg sid conns hd]
      exact isSome_dictGet_dictSet reg sid s' _ hs
  · intro reg sid conns h hall
    rw [broadcast_some reg sid conns h, dictGet_dictSet_self]
    have : conns.filter (fun c => !c.fails) = [] :=
      List.filter_eq_nil_iff.2 fun c hc => by simp [hall c hc]
    rw [this]
  · intro reg sid ws conns hnd h he
    simp only [wsDisconnectCleanup, h, he, if_pos rfl]
    exact dictGet_dictDel_self _ _ (dictNodup_dictSet reg sid _ hnd)
  · intro reg sid ws conns h he
    simp only [wsDisconnectCleanup, h, if_neg he]
    exact dictGet_dictSet_self reg sid _

/-- C10 witness: a broadcast on which the only subscriber throws leaves the
key mapping to `[]`; a disconnect that empties the list deletes the key. -/
theorem claim_c10_key_lifecycle_witness :
    dictGet (broadcastNotification [("abc".toList, [⟨1, true⟩])] "abc".toList).1
      "abc".toList = some [] ∧
    dictGet (wsDisconnectCleanup [("abc".toList, [⟨1, false⟩])] "abc".toList
      ⟨1, false⟩) "abc".toList = none ∧
    dictGet (wsDisconnectCleanup [("abc".toList, [⟨1, false⟩, ⟨2, false⟩])] "abc".toList
      ⟨1, false⟩) "abc".toList = some [⟨2, false⟩] :=
  ⟨claim_c10_key_lifecycle.2.1 [("abc".toList, [⟨1, true⟩])] "abc".toList [⟨1, true⟩]
      (by decide) (by decide),
   claim_c10_key_lifecycle.2.2.1 [("abc".toList, [⟨1, false⟩])] "abc".toList ⟨1, false⟩
      [⟨1, false⟩] (by decide) (by decide) (by decide),
   claim_c10_key_lifecycle.2.2.2 [("abc".toList, [⟨1, false⟩, ⟨2, false⟩])] "abc".toList
      ⟨1, false⟩ [⟨1, false⟩, ⟨2, false⟩] (by decide) (by decide)⟩

/-- C9 counterexample: when the keyword fetch fails, the cache is assigned
the empty dict, not the snapshot that was in place before the load began.
Concrete input: a prior snapshot holding keyword `"alpha"` and a failing
`get_keywords` call; afterwards the cache is empty, which differs from the
prior snapshot. -/
theorem claim_c9_counterexample :
    loadKeywordCache [("alpha".toList, ⟨1, "alpha".toList, none, mkRat 7 10, []⟩)]
      (.error "db down".toList) (fun _ => .ok []) = [] ∧
    ([] : KCache) ≠ [("alpha".toList, ⟨1, "alpha".toList, none, mkRat 7 10, []⟩)] := by
  decide

/-- C9 amended: on any fetch failure — of the keyword list itself or of any
keyword's talking points — the index ends up as the empty mapping, never as
the partially-built one; this coincides with the pre-load snapshot only when
that snapshot was empty, as it is on first load (the only load the program
performs, at construction). -/
theorem claim_c9_amended (prior : KCache) (e : List Char) (rows : List KeywordRow)
    (ftp : Int → Except (List Char) (List TalkingPointRow)) :
    loadKeywordCache prior (.error e) ftp = [] ∧
    ((∃ r ∈ rows, ∃ e', ftp r.id = .error e') →
      loadKeywordCache prior (.ok rows) ftp = []) ∧
    (prior = [] → loadKeywordCache prior (.error e) ftp = prior) := by
  refine ⟨rfl, ?_, fun hp => by rw [hp]; rfl⟩
  intro hex
  exact loadLoop_error ftp rows prior hex

/-- C9 witness: a non-empty prior snapshot with a failing keyword fetch, and
a row list whose talking-point fetch fails, both end in the empty cache. -/
theorem claim_c9_amended_witness :
    loadKeywordCache [("alpha".toList, ⟨1, "alpha".toList, none, mkRat 7 10, []⟩)]
      (.error "db down".toList) (fun _ => .error "tp down".toList) = [] ∧
    loadKeywordCache [("alpha".toList, ⟨1, "alpha".toList, none, mkRat 7 10, []⟩)]
      (.ok [⟨2, "beta".toList, none, mkRat 7 10⟩])
      (fun _ => .error "tp down".toList) = [] :=
  ⟨(claim_c9_amended [("alpha".toList, ⟨1, "alpha".toList, none, mkRat 7 10, []⟩)]
      "db down".toList [⟨2, "beta".toList, none, mkRat 7 10⟩]
      (fun _ => .error "tp down".toList)).1,
   (claim_c9_amended [("alpha".toList, ⟨1, "alpha".toList, none, mkRat 7 10, []⟩)]
      "db down".toList [⟨2, "beta".toList, none, mkRat 7 10⟩]
      (fun _ => .error "tp down".toList)).2.1
     ⟨⟨2, "beta".toList, none, mkRat 7 10⟩, by decide, "tp down".toList, rfl⟩⟩

end AudioPipe
